import Mathlib

/-! Verification of the DevSync code-indexing pipeline (src/devsync.py).

The development shallowly embeds the program: file contents are strings
(lists of characters, ASCII as used throughout the claims), the Python
syntax tree produced by the external `ast.parse` is an explicit tree type,
the external summarization service is an oracle parameter, and the
filesystem is an explicit tree of named files and directories.  Each
function of the source file is translated to an executable Lean definition
of the same name.
-/

/-! Character classes (ASCII fragment of Python's regex and str.split) -/

/-- Whitespace characters: the ASCII whitespace set shared by Python's
regex class backslash-s and by str.split with no arguments. -/
def isPySpace (c : Char) : Bool :=
  c = (' ') || c = ('\t') || c = ('\n') || c = ('\r') || c = ('\x0b') || c = ('\x0c')

/-- Word characters, the ASCII fragment of the regex class backslash-w:
letters, digits and underscore. -/
def isWordChar (c : Char) : Bool :=
  c.isAlpha || c.isDigit || c = ('_')

/-- First-character class of the second alternative of the function
pattern, the literal class [a-zA-Z_]. -/
def isIdentStart (c : Char) : Bool :=
  c.isAlpha || c = ('_')

/-! Literal matching over character lists -/

/-- Match a literal list of characters at the start of the input; on
success, return the remainder of the input. -/
def matchLit : List Char → List Char → Option (List Char)
  | [], rest => some rest
  | _ :: _, [] => none
  | p :: ps, c :: cs => if p = c then matchLit ps cs else none

/-! The summarizer adapter: generate_ai_summary (src/devsync.py lines 86-93) -/

/-- Helper for pySplit: accumulate the current word (reversed) while
scanning; words are maximal runs of non-whitespace, as in Python's
str.split with no arguments. -/
def pySplitAux : List Char → List Char → List (List Char)
  | acc, [] => if acc.isEmpty then [] else [acc.reverse]
  | acc, c :: cs =>
    if isPySpace c then
      if acc.isEmpty then pySplitAux [] cs else acc.reverse :: pySplitAux [] cs
    else pySplitAux (c :: acc) cs

/-- Python str.split with no arguments: split on runs of whitespace,
discarding empty tokens. -/
def pySplit (s : String) : List String :=
  (pySplitAux [] s.data).map String.mk

/-- The fixed sentinel returned for short inputs. -/
def sentinelSummary : String := "Code is too short for meaningful summarization."

/-- The request sent to the external summarization service, or none when
the policy skips the call: if the whitespace-split token count of the
content is below 50 no request is made; otherwise the request is the
first 1024 characters of the content (Python slices strings by code
point, matched here by List.take on the character list). -/
def summaryRequest (content : String) : Option String :=
  if (pySplit content).length < 50 then none
  else some (String.mk (content.data.take 1024))

/-- Translation of generate_ai_summary: the external model is an oracle
mapping the request text to the returned summary string. -/
def generate_ai_summary (summarizer : String → String) (content : String) : String :=
  match summaryRequest content with
  | none => sentinelSummary
  | some req => summarizer req

/-! The two regex patterns of extract_js_cpp_info (src/devsync.py lines 38-43)

The class pattern is `\bclass\s+(\w+)`; the function pattern is
`\b(?:function\s+|[a-zA-Z_]\w*\s*\()\s*(\w+)\s*\(`.  Both are embedded as
match-at-position functions returning the capture, a flag telling whether
the character preceding the unconsumed remainder is a word character
(needed to track word boundaries across a match), and the remainder.
Greedy matching with maximal munch is equivalent to Python's backtracking
here because each character class in the patterns is disjoint from the
literal that must follow it. -/

/-- Match the class pattern at the current position (word boundary on the
left is checked by the scanner). -/
def matchClassAt (s : List Char) : Option (List Char × Bool × List Char) :=
  match matchLit (("class").data) s with
  | none => none
  | some r1 =>
    if (r1.takeWhile isPySpace).isEmpty then none
    else if ((r1.dropWhile isPySpace).takeWhile isWordChar).isEmpty then none
    else some ((r1.dropWhile isPySpace).takeWhile isWordChar, true,
      (r1.dropWhile isPySpace).dropWhile isWordChar)

/-- First alternative of the function pattern: the literal keyword
function, at least one whitespace, the captured identifier, optional
whitespace, and an opening parenthesis. -/
def matchFunAlt1 (s : List Char) : Option (List Char × Bool × List Char) :=
  match matchLit (("function").data) s with
  | none => none
  | some r1 =>
    if (r1.takeWhile isPySpace).isEmpty then none
    else if ((r1.dropWhile isPySpace).takeWhile isWordChar).isEmpty then none
    else
      match ((r1.dropWhile isPySpace).dropWhile isWordChar).dropWhile isPySpace with
      | '(' :: r4 => some ((r1.dropWhile isPySpace).takeWhile isWordChar, false, r4)
      | _ => none

/-- Second alternative of the function pattern: a bare identifier,
optional whitespace, an opening parenthesis, optional whitespace, the
captured identifier, optional whitespace, and a second opening
parenthesis. -/
def matchFunAlt2 (s : List Char) : Option (List Char × Bool × List Char) :=
  match s with
  | [] => none
  | c :: cs =>
    if isIdentStart c then
      match (cs.dropWhile isWordChar).dropWhile isPySpace with
      | '(' :: r2 =>
        if ((r2.dropWhile isPySpace).takeWhile isWordChar).isEmpty then none
        else
          match ((r2.dropWhile isPySpace).dropWhile isWordChar).dropWhile isPySpace with
          | '(' :: r4 => some ((r2.dropWhile isPySpace).takeWhile isWordChar, false, r4)
          | _ => none
      | _ => none
    else none

/-- The function pattern tries the keyword alternative first, then the
bare-identifier alternative, as Python's alternation does. -/
def matchFunAt (s : List Char) : Option (List Char × Bool × List Char) :=
  match matchFunAlt1 s with
  | some r => some r
  | none => matchFunAlt2 s

/-- Scanner reproducing re.findall: try the pattern at every position
whose left context is a word boundary (both patterns can only start at a
word character, so the boundary test reduces to the previous character
not being a word character), collect captures left to right, and resume
after each non-overlapping match.  The fuel argument is initialized with
the input length; every step consumes at least one character, so the
fuel never runs out. -/
def reScan (matchAt : List Char → Option (List Char × Bool × List Char)) :
    Nat → List Char → Bool → List (List Char)
  | 0, _, _ => []
  | _ + 1, [], _ => []
  | fuel + 1, c :: cs, prevW =>
    if prevW then reScan matchAt fuel cs (isWordChar c)
    else
      match matchAt (c :: cs) with
      | some (cap, lw, rest) => cap :: reScan matchAt fuel rest lw
      | none => reScan matchAt fuel cs (isWordChar c)

/-- Captures of re.findall for the class pattern. -/
def re_findall_class (content : String) : List String :=
  (reScan matchClassAt content.data.length content.data false).map String.mk

/-- Captures of re.findall for the function pattern. -/
def re_findall_function (content : String) : List String :=
  (reScan matchFunAt content.data.length content.data false).map String.mk

/-! The Python syntax tree and extract_python_info (src/devsync.py lines 20-30)

The tree produced by the external `ast.parse` is embedded as a tree whose
nodes are class definitions, function definitions, the module root, or
any other statement or expression node, each carrying the list of its
child nodes (the list type is part of the mutual inductive so that all
definitions stay structurally recursive and executable). -/

mutual
inductive PyAst where
  | Module : PyAstList → PyAst
  | ClassDef : String → PyAstList → PyAst
  | FunctionDef : String → PyAstList → PyAst
  | Other : PyAstList → PyAst
inductive PyAstList where
  | nil : PyAstList
  | cons : PyAst → PyAstList → PyAstList
end

/-- Conversion of the embedded child list to an ordinary list. -/
def toListPy : PyAstList → List PyAst
  | .nil => []
  | .cons t ts => t :: toListPy ts

/-- Child nodes of a node, as iterated by ast.walk. -/
def astChildren : PyAst → List PyAst
  | .Module l => toListPy l
  | .ClassDef _ l => toListPy l
  | .FunctionDef _ l => toListPy l
  | .Other l => toListPy l

mutual
/-- Number of nodes of a tree (used as scanner fuel for the walk). -/
def astSize : PyAst → Nat
  | .Module l => 1 + astSizeL l
  | .ClassDef _ l => 1 + astSizeL l
  | .FunctionDef _ l => 1 + astSizeL l
  | .Other l => 1 + astSizeL l
/-- Total number of nodes of a list of trees. -/
def astSizeL : PyAstList → Nat
  | .nil => 0
  | .cons t ts => astSize t + astSizeL ts
end

/-- Breadth-first queue step of ast.walk: pop the front node, emit it,
and append its children to the back of the queue.  The fuel starts at
the total node count, which the walk consumes exactly. -/
def walkAux : Nat → List PyAst → List PyAst
  | 0, _ => []
  | _ + 1, [] => []
  | fuel + 1, t :: ts => t :: walkAux fuel (ts ++ astChildren t)

/-- Translation of ast.walk: breadth-first enumeration of all nodes. -/
def pyWalk (t : PyAst) : List PyAst := walkAux (astSize t) [t]

/-- The isinstance check for ast.ClassDef, returning the node name. -/
def classKey : PyAst → Option String
  | .ClassDef n _ => some n
  | _ => none

/-- The isinstance check for ast.FunctionDef, returning the node name. -/
def funKey : PyAst → Option String
  | .FunctionDef n _ => some n
  | _ => none

/-- Class names collected by extract_python_info. -/
def extract_python_classes (tree : PyAst) : List String :=
  (pyWalk tree).filterMap classKey

/-- Function names collected by extract_python_info. -/
def extract_python_functions (tree : PyAst) : List String :=
  (pyWalk tree).filterMap funKey

/-! FileRecord and the per-file extractors -/

/-- The record produced for one scanned file: its path, the extracted
class names, the extracted function names, and the summary string. -/
structure FileRecord where
  file : String
  classes : List String
  functions : List String
  summary : String
deriving DecidableEq

/-- Translation of extract_python_info: the file has been read to
`content` and parsed by the external parser to `tree`. -/
def extract_python_info (summarizer : String → String) (file_path content : String)
    (tree : PyAst) : FileRecord :=
  { file := file_path
    classes := extract_python_classes tree
    functions := extract_python_functions tree
    summary := generate_ai_summary summarizer content }

/-- Translation of extract_js_cpp_info: pattern-based extraction over the
raw file text. -/
def extract_js_cpp_info (summarizer : String → String) (file_path content : String) :
    FileRecord :=
  { file := file_path
    classes := re_findall_class content
    functions := re_findall_function content
    summary := generate_ai_summary summarizer content }

/-! search_codebase (src/devsync.py lines 74-81) -/

/-- Translation of search_codebase: Python's `in` on a list is exact
element equality. -/
def search_codebase : List FileRecord → String → List String
  | [], _ => []
  | item :: rest, term =>
    if term ∈ item.classes ∨ term ∈ item.functions then
      item.file :: search_codebase rest term
    else search_codebase rest term

/-! Occurrence counts over the syntax tree (specification side)

countKeyA counts, structurally over the tree, the nodes selected by a
key (class definitions named n, or function definitions named n); it is
the order-free reading of the number of definition occurrences in the
tree and is compared below with what the breadth-first walk collects. -/

mutual
/-- Number of nodes of the tree whose key equals the given name. -/
def countKeyA (key : PyAst → Option String) (name : String) : PyAst → Nat
  | .Module l => (if key (.Module l) = some name then 1 else 0) + countKeyL key name l
  | .ClassDef n l => (if key (.ClassDef n l) = some name then 1 else 0) + countKeyL key name l
  | .FunctionDef n l => (if key (.FunctionDef n l) = some name then 1 else 0) + countKeyL key name l
  | .Other l => (if key (.Other l) = some name then 1 else 0) + countKeyL key name l
/-- Total count over a list of trees. -/
def countKeyL (key : PyAst → Option String) (name : String) : PyAstList → Nat
  | .nil => 0
  | .cons t ts => countKeyA key name t + countKeyL key name ts
end

mutual
/-- Names selected by the key in order of first textual occurrence: a
definition's name appears at its header, before its body and before any
later sibling, so textual order is depth-first pre-order. -/
def preNamesA (key : PyAst → Option String) : PyAst → List String
  | .Module l => (key (.Module l)).toList ++ preNamesL key l
  | .ClassDef n l => (key (.ClassDef n l)).toList ++ preNamesL key l
  | .FunctionDef n l => (key (.FunctionDef n l)).toList ++ preNamesL key l
  | .Other l => (key (.Other l)).toList ++ preNamesL key l
/-- Pre-order names over a list of trees. -/
def preNamesL (key : PyAst → Option String) : PyAstList → List String
  | .nil => []
  | .cons t ts => preNamesA key t ++ preNamesL key ts
end

/-! Position-instrumented scanner (for the textual-occurrence ordering) -/

/-- Variant of reScan also reporting the start position of every match. -/
def reScanPos (matchAt : List Char → Option (List Char × Bool × List Char)) :
    Nat → List Char → Bool → Nat → List (Nat × List Char)
  | 0, _, _, _ => []
  | _ + 1, [], _, _ => []
  | fuel + 1, c :: cs, prevW, p =>
    if prevW then reScanPos matchAt fuel cs (isWordChar c) (p + 1)
    else
      match matchAt (c :: cs) with
      | some (cap, lw, rest) =>
          (p, cap) :: reScanPos matchAt fuel rest lw (p + (cs.length + 1 - rest.length))
      | none => reScanPos matchAt fuel cs (isWordChar c) (p + 1)

/-! Filesystem model and get_code_files (src/devsync.py lines 11-18) -/

mutual
inductive FsEntry where
  | file : String → String → FsEntry
  | dir : String → FsList → FsEntry
inductive FsList where
  | nil : FsList
  | cons : FsEntry → FsList → FsList
end

/-- Plain files of one directory listing, with their contents, in listing
order (the files component of one os.walk triple). -/
def filesOf : FsList → List (String × String)
  | .nil => []
  | .cons (.file n c) rest => (n, c) :: filesOf rest
  | .cons (.dir _ _) rest => filesOf rest

/-- Translation of os.path.flatten for the cases the walk produces. -/
def pyJoin (a b : String) : String :=
  if b.data.head? = some ('/') then b
  else if a.data = [] then b
  else if a.data.getLast? = some ('/') then a ++ b
  else a ++ ("/") ++ b

/-- Directory triples below the given listing, depth first in listing
order, as os.walk (top-down) yields them after the root triple. -/
def subWalk : String → FsList → List (String × List (String × String))
  | _, .nil => []
  | root, .cons (.file _ _) rest => subWalk root rest
  | root, .cons (.dir d es) rest =>
      ((pyJoin root d, filesOf es) :: subWalk (pyJoin root d) es) ++ subWalk root rest

/-- Translation of os.walk: the root triple followed by all descendant
directory triples, top-down. -/
def os_walk (directory : String) (entries : FsList) : List (String × List (String × String)) :=
  (directory, filesOf entries) :: subWalk directory entries

/-- Python str.endswith: exact, case-sensitive suffix comparison. -/
def pyEndsWith (s e : String) : Bool :=
  (matchLit e.data.reverse s.data.reverse).isSome

/-- Translation of get_code_files: walk the tree and join every file name
matching one of the extensions onto its directory path. -/
def get_code_files (directory : String) (entries : FsList) (extensions : List String) :
    List String :=
  ((os_walk directory entries).map (fun re =>
    (re.2.filter fun f => extensions.any fun ext => pyEndsWith f.1 ext).map
      fun f => pyJoin re.1 f.1)).flatten

/-- All files under the walk, unfiltered: full path, bare name, content. -/
def pyAllFiles (directory : String) (entries : FsList) : List (String × String × String) :=
  ((os_walk directory entries).map (fun re =>
    re.2.map fun f => (pyJoin re.1 f.1, f.1, f.2))).flatten

/-! The main pipeline (src/devsync.py lines 95-103) -/

/-- The default extension list of the entry point. -/
def mainExtensions : List String := [(".py"), (".js"), (".cpp"), (".java")]

/-- Discovered files with their names and contents, in discovery order:
the files get_code_files returns, paired with the content the extractors
then read from disk. -/
def discoveredTriples (directory : String) (entries : FsList) : List (String × String × String) :=
  (pyAllFiles directory entries).filter fun t =>
    mainExtensions.any fun ext => pyEndsWith t.2.1 ext

/-- Translation of the record-building loop of the entry point: dispatch
on the file path suffix, abort the whole run if the external Python
parser fails, skip files matching no branch.  The parser for the
fully-parsed language is the oracle pyParse. -/
def buildRecords (pyParse : String → Option PyAst) (summarizer : String → String) :
    List (String × String × String) → Option (List FileRecord)
  | [] => some []
  | t :: rest =>
    if pyEndsWith t.1 (".py") then
      match pyParse t.2.2 with
      | none => none
      | some tree =>
        (buildRecords pyParse summarizer rest).map
          fun rs => extract_python_info summarizer t.1 t.2.2 tree :: rs
    else if pyEndsWith t.1 (".js") || pyEndsWith t.1 (".cpp") || pyEndsWith t.1 (".java") then
      (buildRecords pyParse summarizer rest).map
        fun rs => extract_js_cpp_info summarizer t.1 t.2.2 :: rs
    else buildRecords pyParse summarizer rest

/-- One run of the entry point up to the code_info list. -/
def runPipeline (pyParse : String → Option PyAst) (summarizer : String → String)
    (directory : String) (entries : FsList) : Option (List FileRecord) :=
  buildRecords pyParse summarizer (discoveredTriples directory entries)

/-- Per-file record specification: the single extraction strategy chosen
by the file's extension, or none for the aborting or skipping cases. -/
def recordFor (pyParse : String → Option PyAst) (summarizer : String → String)
    (t : String × String × String) : Option FileRecord :=
  if pyEndsWith t.1 (".py") then
    (pyParse t.2.2).map fun tree => extract_python_info summarizer t.1 t.2.2 tree
  else if pyEndsWith t.1 (".js") || pyEndsWith t.1 (".cpp") || pyEndsWith t.1 (".java") then
    some (extract_js_cpp_info summarizer t.1 t.2.2)
  else none

/-! The Markdown report (src/devsync.py lines 48-71) -/

/-- Translation of os.path.basename for POSIX paths: the part after the
last slash. -/
def pyBasename (p : String) : String :=
  String.mk ((p.data.reverse.takeWhile (fun c => c != ('/'))).reverse)

/-- Literal text fragments of the report format, as character lists. -/
def mdTitle : List Char := ("# CodeMap Summary (AI-Powered) 🤖\n\n").data

/-- Heading opener of a file section. -/
def litH2 : List Char := ("## ").data

/-- Path line written after the heading. -/
def litNlPath : List Char := ("\n📂 **Path:** `").data

/-- Path line after its leading newline (used when re-parsing). -/
def litPathHdr : List Char := ("📂 **Path:** `").data

/-- Closing backtick of the path line and the following blank line. -/
def litTickNlNl : List Char := ("`\n\n").data

/-- The blank-line part after the path's closing backtick. -/
def litNlNl : List Char := ("\n\n").data

/-- Header of the optional Classes section. -/
def litClasses : List Char := ("### Classes\n").data

/-- Header of the optional Functions section. -/
def litFunctions : List Char := ("\n### Functions\n").data

/-- Header of the summary section, up to the pencil marker. -/
def litSummary : List Char := ("\n### AI-Powered Summary 📜\n📝 ").data

/-- Trailing text after the summary: blank lines and the rule. -/
def litRule : List Char := ("\n\n\n---\n").data

/-- The rule tail after the summary's terminating newline. -/
def litRuleTail : List Char := ("\n\n---\n").data

/-- Opener of one bulleted name line. -/
def litBullet1 : List Char := ("- `").data

/-- Closer of one bulleted name line. -/
def litBullet2 : List Char := ("`\n").data

/-- A single newline. -/
def litNl : List Char := ("\n").data

/-- One bulleted name line of the report. -/
def bulletLine (n : String) : List Char :=
  litBullet1 ++ n.data ++ litBullet2

/-- Exact text written for one record by generate_markdown_summary: the
heading with the base name, the path line, the optional Classes and
Functions sections (omitted when the corresponding list is empty, as
Python truthiness does), the summary section, and the rule line. -/
def renderItem (r : FileRecord) : List Char :=
  litH2 ++ (pyBasename r.file).data ++ litNlPath ++ r.file.data ++ litTickNlNl ++
    (if r.classes.isEmpty then [] else litClasses ++ (r.classes.map bulletLine).flatten) ++
    (if r.functions.isEmpty then [] else litFunctions ++ (r.functions.map bulletLine).flatten) ++
    litSummary ++ r.summary.data ++ litRule

/-- Translation of generate_markdown_summary: the full text written to
the report file. -/
def generate_markdown_summary (code_info : List FileRecord) : List Char :=
  mdTitle ++ (code_info.map renderItem).flatten

/-- The fields of a record that the report displays. -/
def fieldsOf (r : FileRecord) : String × String × List String × List String × String :=
  (pyBasename r.file, r.file, r.classes, r.functions, r.summary)

/-! A re-parser for the report, modelled from the spec

Modelled from the spec: the spec asserts a round trip — "rendering then
re-parsing the Markdown report recovers, for each file, the same base
filename, path, class list, function list, and summary string" — without
the source containing a parser.  The following parser reads the exact
format emitted above. -/

/-- Split at the first occurrence of a delimiter character, returning the
part before it and the part after it. -/
def splitAtChar (d : Char) (s : List Char) : Option (List Char × List Char) :=
  match s.dropWhile (fun c => c != d) with
  | [] => none
  | _ :: rest => some (s.takeWhile (fun c => c != d), rest)

/-- Parse consecutive bulleted name lines; stops at the first line not
starting a bullet. -/
def parseBullets : Nat → List Char → Option (List (List Char) × List Char)
  | 0, _ => none
  | fuel + 1, s =>
    match matchLit litBullet1 s with
    | none => some ([], s)
    | some r1 =>
      match splitAtChar ('`') r1 with
      | none => none
      | some (nm, r2) =>
        match matchLit litNl r2 with
        | none => none
        | some r3 =>
          match parseBullets fuel r3 with
          | none => none
          | some (ns, rest) => some (nm :: ns, rest)

/-- Parse one optional bulleted section introduced by the given header:
an absent header means the empty name list. -/
def parseSection (hdr : List Char) (s : List Char) : Option (List (List Char) × List Char) :=
  match matchLit hdr s with
  | some rc => parseBullets rc.length rc
  | none => some ([], s)

/-- Parse one file section of the report, returning its displayed fields
and the unconsumed remainder. -/
def parseItem (s : List Char) :
    Option ((String × String × List String × List String × String) × List Char) := do
  let r1 ← matchLit litH2 s
  let (bn, r2) ← splitAtChar ('\n') r1
  let r3 ← matchLit litPathHdr r2
  let (path, r4) ← splitAtChar ('`') r3
  let r5 ← matchLit litNlNl r4
  let (cls, r6) ← parseSection litClasses r5
  let (fns, r7) ← parseSection litFunctions r6
  let r8 ← matchLit litSummary r7
  let (summ, r9) ← splitAtChar ('\n') r8
  let r10 ← matchLit litRuleTail r9
  some ((String.mk bn, String.mk path, cls.map String.mk, fns.map String.mk, String.mk summ), r10)

/-- Parse all file sections until the input is exhausted. -/
def parseItems : Nat → List Char → Option (List (String × String × List String × List String × String))
  | _, [] => some []
  | 0, _ :: _ => none
  | fuel + 1, c :: cs =>
    match parseItem (c :: cs) with
    | none => none
    | some (f, rest) =>
      match parseItems fuel rest with
      | none => none
      | some fs => some (f :: fs)

/-- Parse a whole report document. -/
def parseReport (doc : List Char) :
    Option (List (String × String × List String × List String × String)) :=
  match matchLit mdTitle doc with
  | none => none
  | some rest => parseItems rest.length rest

/-! Concrete inputs used by counterexamples and witnesses -/

/-- The C++ fragment of the spec's scenario for pattern extraction. -/
def shapeText : String := "class Shape { int area() { return compute(x); } }"

/-- A text of 342 identical three-character words, 1026 characters long. -/
def c4text : String := String.mk ((List.replicate 342 [(' '), ('a'), ('b')]).flatten)

/-- A module with a nested class B inside class A, followed by class C. -/
def c5tree : PyAst :=
  .Module (.cons (.ClassDef ("A") (.cons (.ClassDef ("B") .nil) .nil))
    (.cons (.ClassDef ("C") .nil) .nil))

/-- A summary string that embeds a complete second report section. -/
def c8summary : String :=
  "s1\n\n\n---\n## b.py\n📂 **Path:** `b.py`\n\n\n### AI-Powered Summary 📜\n📝 s2"

/-- A single record whose summary embeds a fake second section. -/
def c8one : List FileRecord := [⟨("a.py"), [], [], c8summary⟩]

/-- Two records rendering to the same document as c8one. -/
def c8two : List FileRecord :=
  [⟨("a.py"), [], [], ("s1")⟩, ⟨("b.py"), [], [], ("s2")⟩]

/-- A small directory tree: a subdirectory with one Python file, then a
text file and a Python file at the root. -/
def sampleFs : FsList :=
  .cons (.dir ("sub") (.cons (.file ("a.py") ("x")) .nil))
    (.cons (.file ("b.txt") ("")) (.cons (.file ("c.py") ("y")) .nil))

/-- Well-formedness of a record for the report round trip: no field
contains a newline, and no path or name contains a backtick. -/
def wfRecord (r : FileRecord) : Prop :=
  ('\n') ∉ r.file.data ∧ ('`') ∉ r.file.data ∧
    (∀ n ∈ r.classes, ('\n') ∉ n.data ∧ ('`') ∉ n.data) ∧
    (∀ n ∈ r.functions, ('\n') ∉ n.data ∧ ('`') ∉ n.data) ∧
    ('\n') ∉ r.summary.data

instance (r : FileRecord) : Decidable (wfRecord r) := by
  unfold wfRecord
  infer_instance

theorem word_not_space {c : Char} (h : isWordChar c = true) : isPySpace c = false := by
  by_contra hc
  rw [Bool.not_eq_false, isPySpace] at hc
  simp only [Bool.or_eq_true, decide_eq_true_eq] at hc
  rcases hc with ((((h1 | h1) | h1) | h1) | h1) | h1 <;> subst h1 <;> simp [isWordChar] at h

theorem matchLit_eq : ∀ (p s r : List Char), matchLit p s = some r ↔ s = p ++ r
  | [], s, r => by simp [matchLit]
  | p :: ps, [], r => by simp [matchLit]
  | p :: ps, c :: cs, r => by
    by_cases h : p = c
    · subst h
      simp only [matchLit, if_pos rfl, List.cons_append, List.cons.injEq, true_and]
      exact matchLit_eq ps cs r
    · simp [matchLit, if_neg h, List.cons_append, Ne.symm h]

theorem matchLit_self (p r : List Char) : matchLit p (p ++ r) = some r :=
  (matchLit_eq p (p ++ r) r).mpr rfl

theorem matchLit_length {p s r : List Char} (h : matchLit p s = some r) :
    r.length = s.length - p.length := by
  have := (matchLit_eq p s r).mp h
  subst this
  simp

theorem astSize_pos : ∀ t : PyAst, 1 ≤ astSize t
  | .Module _ => Nat.le_add_right 1 _
  | .ClassDef _ _ => Nat.le_add_right 1 _
  | .FunctionDef _ _ => Nat.le_add_right 1 _
  | .Other _ => Nat.le_add_right 1 _

theorem sizeL_toList : ∀ l : PyAstList, ((toListPy l).map astSize).sum = astSizeL l
  | .nil => rfl
  | .cons t ts => by simp [toListPy, astSizeL, sizeL_toList ts]

theorem astSize_children (t : PyAst) :
    astSize t = 1 + ((astChildren t).map astSize).sum := by
  cases t <;> simp [astSize, astChildren, sizeL_toList]

theorem countL_toList (key : PyAst → Option String) (name : String) :
    ∀ l : PyAstList, ((toListPy l).map (countKeyA key name)).sum = countKeyL key name l
  | .nil => rfl
  | .cons t ts => by simp [toListPy, countKeyL, countL_toList key name ts]

theorem countKeyA_children (key : PyAst → Option String) (name : String) (t : PyAst) :
    countKeyA key name t =
      (if key t = some name then 1 else 0) + ((astChildren t).map (countKeyA key name)).sum := by
  cases t <;> simp [countKeyA, astChildren, countL_toList]

theorem walk_countP (key : PyAst → Option String) (name : String) :
    ∀ (fuel : Nat) (queue : List PyAst), (queue.map astSize).sum ≤ fuel →
      (walkAux fuel queue).countP (fun n => decide (key n = some name)) =
        (queue.map (countKeyA key name)).sum := by
  intro fuel
  induction fuel with
  | zero =>
    intro queue hq
    cases queue with
    | nil => rfl
    | cons t ts =>
      exfalso
      have h1 := astSize_pos t
      simp only [List.map_cons, List.sum_cons, Nat.le_zero] at hq
      omega
  | succ fuel ih =>
    intro queue hq
    cases queue with
    | nil => rfl
    | cons t ts =>
      have hsz := astSize_children t
      have hq2 : ((ts ++ astChildren t).map astSize).sum ≤ fuel := by
        simp only [List.map_cons, List.sum_cons] at hq
        simp only [List.map_append, List.sum_append]
        omega
      have hw := ih (ts ++ astChildren t) hq2
      have hck := countKeyA_children key name t
      simp only [walkAux, List.countP_cons, hw, List.map_append, List.sum_append,
        List.map_cons, List.sum_cons]
      by_cases hk : key t = some name
      · simp only [hk] at hck ⊢
        simp at hck ⊢
        omega
      · simp only [if_neg hk] at hck
        simp [hk]
        omega

theorem count_filterMap_key (key : PyAst → Option String) (name : String) :
    ∀ l : List PyAst,
      (l.filterMap key).count name = l.countP (fun n => decide (key n = some name)) := by
  intro l
  induction l with
  | nil => rfl
  | cons a l ih =>
    cases h : key a with
    | none => simp [List.filterMap_cons, h, List.countP_cons, ih]
    | some b =>
      simp [List.filterMap_cons, h, List.countP_cons, ih, List.count_cons]

theorem extract_count (key : PyAst → Option String) (name : String) (t : PyAst) :
    ((pyWalk t).filterMap key).count name = countKeyA key name t := by
  rw [count_filterMap_key]
  have h := walk_countP key name (astSize t) [t] (by simp)
  simpa using h

theorem reScanPos_snd (matchAt : List Char → Option (List Char × Bool × List Char)) :
    ∀ (fuel : Nat) (s : List Char) (pw : Bool) (p : Nat),
      (reScanPos matchAt fuel s pw p).map Prod.snd = reScan matchAt fuel s pw := by
  intro fuel
  induction fuel with
  | zero => intro s pw p; rfl
  | succ fuel ih =>
    intro s pw p
    cases s with
    | nil => rfl
    | cons c cs =>
      by_cases hpw : pw
      · simp [reScanPos, reScan, hpw, ih]
      · cases hm : matchAt (c :: cs) with
        | none => simp [reScanPos, reScan, hpw, hm, ih]
        | some r =>
          obtain ⟨cap, lw, rest⟩ := r
          simp [reScanPos, reScan, hpw, hm, ih]

theorem reScanPos_lb (matchAt : List Char → Option (List Char × Bool × List Char)) :
    ∀ (fuel : Nat) (s : List Char) (pw : Bool) (p : Nat),
      ∀ x ∈ reScanPos matchAt fuel s pw p, p ≤ x.1 := by
  intro fuel
  induction fuel with
  | zero => intro s pw p x hx; simp [reScanPos] at hx
  | succ fuel ih =>
    intro s pw p x hx
    cases s with
    | nil => simp [reScanPos] at hx
    | cons c cs =>
      by_cases hpw : pw
      · simp only [reScanPos, if_pos hpw] at hx
        have := ih cs (isWordChar c) (p + 1) x hx
        omega
      · cases hmc : matchAt (c :: cs) with
        | none =>
          simp only [reScanPos, if_neg hpw, hmc] at hx
          have := ih cs (isWordChar c) (p + 1) x hx
          omega
        | some r =>
          obtain ⟨cap, lw, rest⟩ := r
          simp only [reScanPos, if_neg hpw, hmc, List.mem_cons] at hx
          rcases hx with hx | hx
          · subst hx; exact Nat.le_refl p
          · have := ih rest lw (p + (cs.length + 1 - rest.length)) x hx
            omega

theorem reScanPos_chain (matchAt : List Char → Option (List Char × Bool × List Char))
    (hm : ∀ s cap lw rest, matchAt s = some (cap, lw, rest) → rest.length < s.length) :
    ∀ (fuel : Nat) (s : List Char) (pw : Bool) (p : Nat),
      List.Chain' (fun a b => a.1 < b.1) (reScanPos matchAt fuel s pw p) := by
  intro fuel
  induction fuel with
  | zero => intro s pw p; simp [reScanPos]
  | succ fuel ih =>
    intro s pw p
    cases s with
    | nil => simp [reScanPos]
    | cons c cs =>
      by_cases hpw : pw
      · simpa [reScanPos, hpw] using ih cs (isWordChar c) (p + 1)
      · cases hmc : matchAt (c :: cs) with
        | none => simpa [reScanPos, hpw, hmc] using ih cs (isWordChar c) (p + 1)
        | some r =>
          obtain ⟨cap, lw, rest⟩ := r
          have hlt : rest.length < cs.length + 1 := by
            have := hm (c :: cs) cap lw rest hmc
            simpa using this
          simp only [reScanPos, if_neg hpw, hmc]
          rw [List.chain'_cons']
          refine ⟨?_, ih rest lw (p + (cs.length + 1 - rest.length))⟩
          intro b hb
          have hmem : b ∈ reScanPos matchAt fuel rest lw (p + (cs.length + 1 - rest.length)) :=
            List.mem_of_mem_head? hb
          have := reScanPos_lb matchAt fuel rest lw (p + (cs.length + 1 - rest.length)) b hmem
          omega

/-! Remaining helper lemmas -/

theorem dropWhile_len {p : Char → Bool} : ∀ l : List Char, (l.dropWhile p).length ≤ l.length := by
  intro l
  induction l with
  | nil => simp
  | cons a l ih =>
    by_cases h : p a <;> simp [List.dropWhile_cons, h] <;> omega

theorem mk_data (s : String) : String.mk s.data = s := by
  cases s
  rfl

theorem reScan_nil (matchAt : List Char → Option (List Char × Bool × List Char))
    (fuel : Nat) (pw : Bool) : reScan matchAt fuel [] pw = [] := by
  cases fuel <;> rfl

theorem takeWhile_append_all {p : Char → Bool} :
    ∀ (u v : List Char), (∀ c ∈ u, p c = true) → (∀ c, v.head? = some c → p c = false) →
      (u ++ v).takeWhile p = u ∧ (u ++ v).dropWhile p = v := by
  intro u
  induction u with
  | nil =>
    intro v _ hv
    cases v with
    | nil => exact ⟨rfl, rfl⟩
    | cons c cs =>
      have := hv c rfl
      simp [List.takeWhile_cons, List.dropWhile_cons, this]
  | cons a u ih =>
    intro v hu hv
    have ha : p a = true := hu a (List.mem_cons_self a u)
    have := ih v (fun c hc => hu c (List.mem_cons_of_mem a hc)) hv
    simp [List.takeWhile_cons, List.dropWhile_cons, ha, this.1, this.2]

/-! Claim C3 -/

/-- C3: for every input text whose whitespace-split token count is below
50, generate_ai_summary returns exactly the fixed sentinel string and
sends no request to the external summarization service. -/
theorem claim_C3 (summarizer : String → String) (T : String)
    (h : (pySplit T).length < 50) :
    generate_ai_summary summarizer T = sentinelSummary ∧ summaryRequest T = none := by
  have hr : summaryRequest T = none := by
    unfold summaryRequest
    rw [if_pos h]
  refine ⟨?_, hr⟩
  unfold generate_ai_summary
  rw [hr]

/-- Witness for C3 at a concrete 3-token input. -/
theorem claim_C3_witness :
    (pySplit ("def f(): pass")).length < 50 ∧
      generate_ai_summary (fun _ => ("X")) ("def f(): pass") = sentinelSummary ∧
      summaryRequest ("def f(): pass") = none :=
  ⟨by decide, claim_C3 (fun _ => ("X")) ("def f(): pass") (by decide)⟩

/-! Claim C4 -/

/-- C4: for every text with at least 50 whitespace-delimited tokens and
more than 1024 characters, the request sent to the external service is
exactly the first 1024 characters of the text, and any other text with
enough tokens and the same first 1024 characters produces the same
request. -/
theorem claim_C4 (T : String) (h50 : 50 ≤ (pySplit T).length)
    (hlen : 1024 < T.data.length) :
    summaryRequest T = some (String.mk (T.data.take 1024)) ∧
      ∀ U : String, 50 ≤ (pySplit U).length → U.data.take 1024 = T.data.take 1024 →
        summaryRequest U = summaryRequest T := by
  have hT : summaryRequest T = some (String.mk (T.data.take 1024)) := by
    unfold summaryRequest
    rw [if_neg (Nat.not_lt.mpr h50)]
  refine ⟨hT, fun U hU htk => ?_⟩
  unfold summaryRequest
  rw [if_neg (Nat.not_lt.mpr hU), if_neg (Nat.not_lt.mpr h50), htk]

set_option maxRecDepth 100000 in
/-- Witness for C4 at a concrete 1026-character, 342-token input. -/
theorem claim_C4_witness :
    50 ≤ (pySplit c4text).length ∧ 1024 < c4text.data.length ∧
      summaryRequest c4text = some (String.mk (c4text.data.take 1024)) :=
  ⟨by decide, by decide, (claim_C4 c4text (by decide) (by decide)).1⟩

/-! Claim C7 -/

/-- C7: search_codebase returns the paths of exactly the records one of
whose classes or functions equals the term (exact string equality), in
input order, and returns the empty list rather than an error when no
record matches. -/
theorem claim_C7 (records : List FileRecord) (term : String) :
    search_codebase records term =
      (records.filter fun r => decide (term ∈ r.classes ∨ term ∈ r.functions)).map
        (fun r => r.file) ∧
      ((∀ r ∈ records, term ∉ r.classes ∧ term ∉ r.functions) →
        search_codebase records term = []) := by
  have hmain : search_codebase records term =
      (records.filter fun r => decide (term ∈ r.classes ∨ term ∈ r.functions)).map
        (fun r => r.file) := by
    induction records with
    | nil => rfl
    | cons r rs ih =>
      by_cases h : term ∈ r.classes ∨ term ∈ r.functions
      · simp [search_codebase, h, List.filter_cons, ih]
      · simp [search_codebase, h, List.filter_cons, ih]
  have hfilter : ∀ rs : List FileRecord,
      (∀ r ∈ rs, term ∉ r.classes ∧ term ∉ r.functions) →
        rs.filter (fun r => decide (term ∈ r.classes ∨ term ∈ r.functions)) = [] := by
    intro rs
    induction rs with
    | nil => intro _; rfl
    | cons r rs ih =>
      intro hall2
      have h1 := hall2 r (List.mem_cons_self r rs)
      have hnot : ¬(term ∈ r.classes ∨ term ∈ r.functions) := fun hor => hor.elim h1.1 h1.2
      simp only [List.filter_cons, decide_eq_false hnot, Bool.false_eq_true, if_false]
      exact ih fun x hx => hall2 x (List.mem_cons_of_mem r hx)
  refine ⟨hmain, fun hall => ?_⟩
  rw [hmain, hfilter records hall]
  rfl

/-- Witness for C7: a term absent from the single record yields the
empty result. -/
theorem claim_C7_witness :
    search_codebase [⟨("a.py"), [("Foo")], [("bar")], ("s")⟩] ("Missing") = [] :=
  (claim_C7 [⟨("a.py"), [("Foo")], [("bar")], ("s")⟩] ("Missing")).2 (by decide)

/-! Claim C10 -/

/-- C10: every matching record contributes exactly one path to the search
result — the result length equals the number of matching records — and in
particular a record whose classes and functions both contain the term
still contributes a single entry. -/
theorem claim_C10 (records : List FileRecord) (term : String) :
    (search_codebase records term).length =
      records.countP (fun r => decide (term ∈ r.classes ∨ term ∈ r.functions)) ∧
      ∀ r : FileRecord, term ∈ r.classes → term ∈ r.functions →
        search_codebase [r] term = [r.file] := by
  constructor
  · induction records with
    | nil => rfl
    | cons r rs ih =>
      by_cases h : term ∈ r.classes ∨ term ∈ r.functions
      · simp [search_codebase, h, List.countP_cons, ih]
      · simp [search_codebase, h, List.countP_cons, ih]
  · intro r h1 h2
    simp [search_codebase, Or.inl h1]

/-- Witness for C10: the term occurs in both lists of the record yet the
path appears once. -/
theorem claim_C10_witness :
    search_codebase [⟨("a.py"), [("Foo")], [("Foo")], ("s")⟩] ("Foo") = [("a.py")] :=
  (claim_C10 [⟨("a.py"), [("Foo")], [("Foo")], ("s")⟩] ("Foo")).2
    ⟨("a.py"), [("Foo")], [("Foo")], ("s")⟩ (by decide) (by decide)

theorem matchClassAt_consumes :
    ∀ (s cap : List Char) (lw : Bool) (rest : List Char),
      matchClassAt s = some (cap, lw, rest) → rest.length < s.length := by
  intro s cap lw rest h
  unfold matchClassAt at h
  split at h
  · exact absurd h (by simp)
  rename_i r1 hml
  split at h
  · exact absurd h (by simp)
  split at h
  · exact absurd h (by simp)
  have hrest : rest = (r1.dropWhile isPySpace).dropWhile isWordChar := by
    simp only [Option.some.injEq, Prod.mk.injEq] at h
    exact h.2.2.symm
  have hs := (matchLit_eq (("class").data) s r1).mp hml
  have h5 : ((("class").data : List Char)).length = 5 := rfl
  have hlen : s.length = 5 + r1.length := by
    rw [hs, List.length_append, h5]
  have d1 := dropWhile_len (p := isPySpace) r1
  have d2 := dropWhile_len (p := isWordChar) (r1.dropWhile isPySpace)
  rw [hrest]
  omega

theorem matchFunAlt1_consumes :
    ∀ (s cap : List Char) (lw : Bool) (rest : List Char),
      matchFunAlt1 s = some (cap, lw, rest) → rest.length < s.length := by
  intro s cap lw rest h
  unfold matchFunAlt1 at h
  split at h
  · exact absurd h (by simp)
  rename_i r1 hml
  split at h
  · exact absurd h (by simp)
  split at h
  · exact absurd h (by simp)
  split at h
  · rename_i r4 hp4
    have hrest : rest = r4 := by
      simp only [Option.some.injEq, Prod.mk.injEq] at h
      exact h.2.2.symm
    have hs := (matchLit_eq (("function").data) s r1).mp hml
    have h8 : ((("function").data : List Char)).length = 8 := rfl
    have hlen : s.length = 8 + r1.length := by
      rw [hs, List.length_append, h8]
    have l4 := congrArg List.length hp4
    simp only [List.length_cons] at l4
    have d1 := dropWhile_len (p := isPySpace) r1
    have d2 := dropWhile_len (p := isWordChar) (r1.dropWhile isPySpace)
    have d3 := dropWhile_len (p := isPySpace) ((r1.dropWhile isPySpace).dropWhile isWordChar)
    rw [hrest]
    omega
  · exact absurd h (by simp)

theorem matchFunAlt2_consumes :
    ∀ (s cap : List Char) (lw : Bool) (rest : List Char),
      matchFunAlt2 s = some (cap, lw, rest) → rest.length < s.length := by
  intro s cap lw rest h
  unfold matchFunAlt2 at h
  split at h
  · exact absurd h (by simp)
  rename_i c cs
  split at h
  case isFalse => exact absurd h (by simp)
  split at h
  · rename_i r2 hp2
    split at h
    · exact absurd h (by simp)
    split at h
    · rename_i r4 hp4
      have hrest : rest = r4 := by
        simp only [Option.some.injEq, Prod.mk.injEq] at h
        exact h.2.2.symm
      have l2 := congrArg List.length hp2
      simp only [List.length_cons] at l2
      have l4 := congrArg List.length hp4
      simp only [List.length_cons] at l4
      have d1 := dropWhile_len (p := isWordChar) cs
      have d2 := dropWhile_len (p := isPySpace) (cs.dropWhile isWordChar)
      have d3 := dropWhile_len (p := isPySpace) r2
      have d4 := dropWhile_len (p := isWordChar) (r2.dropWhile isPySpace)
      have d5 := dropWhile_len (p := isPySpace) ((r2.dropWhile isPySpace).dropWhile isWordChar)
      rw [hrest]
      simp only [List.length_cons]
      omega
    · exact absurd h (by simp)
  · exact absurd h (by simp)

theorem matchFunAt_consumes :
    ∀ (s cap : List Char) (lw : Bool) (rest : List Char),
      matchFunAt s = some (cap, lw, rest) → rest.length < s.length := by
  intro s cap lw rest h
  unfold matchFunAt at h
  split at h
  · rename_i r ha1
    have : r = (cap, lw, rest) := by
      simpa using h
    subst this
    exact matchFunAlt1_consumes s cap lw rest ha1
  · rename_i ha1
    exact matchFunAlt2_consumes s cap lw rest h

/-! Claim C2 -/

/-- C2: for every syntax tree of the fully-parsed language, the class
names returned by grammar-based extraction are exactly the names of the
class-definition nodes occurring anywhere in the tree (countKeyA counts
such nodes structurally, at any nesting depth), and likewise the
function names are exactly the function-definition node names, nested
definitions and methods included. -/
theorem claim_C2 (tree : PyAst) (name : String) :
    (name ∈ extract_python_classes tree ↔ 0 < countKeyA classKey name tree) ∧
    (name ∈ extract_python_functions tree ↔ 0 < countKeyA funKey name tree) := by
  constructor
  · rw [← extract_count classKey name tree]
    exact List.count_pos_iff.symm
  · rw [← extract_count funKey name tree]
    exact List.count_pos_iff.symm

/-! Claim C5 -/

/-- Counterexample to C5: on a module with class B nested inside class A
followed by class C, grammar-based extraction returns the names in
breadth-first order A, C, B, not in the order of first textual
occurrence A, B, C (preNamesA lists names in depth-first pre-order,
which is the order of first textual occurrence since a definition's name
is written at its header, before its body and before later siblings). -/
theorem claim_C5_cex :
    extract_python_classes c5tree = [("A"), ("C"), ("B")] ∧
      preNamesA classKey c5tree = [("A"), ("B"), ("C")] ∧
      extract_python_classes c5tree ≠ preNamesA classKey c5tree :=
  ⟨by decide, by decide, by decide⟩

/-- C5 (amended): pattern-based extraction collects its captures in
strictly increasing order of match position — the order of textual
occurrence — with no deduplication; grammar-based extraction preserves
every occurrence with its exact multiplicity (no deduplication), but
lists names in breadth-first traversal order of the tree, which departs
from first-textual-occurrence order for nested definitions. -/
theorem claim_C5_amended :
    (∀ content : String,
        List.Chain' (fun a b => a.1 < b.1)
          (reScanPos matchClassAt content.data.length content.data false 0) ∧
        (reScanPos matchClassAt content.data.length content.data false 0).map Prod.snd =
          reScan matchClassAt content.data.length content.data false ∧
        List.Chain' (fun a b => a.1 < b.1)
          (reScanPos matchFunAt content.data.length content.data false 0) ∧
        (reScanPos matchFunAt content.data.length content.data false 0).map Prod.snd =
          reScan matchFunAt content.data.length content.data false) ∧
    (∀ (tree : PyAst) (name : String),
        (extract_python_classes tree).count name = countKeyA classKey name tree ∧
        (extract_python_functions tree).count name = countKeyA funKey name tree) := by
  refine ⟨fun content => ⟨?_, ?_, ?_, ?_⟩,
    fun tree name => ⟨extract_count classKey name tree, extract_count funKey name tree⟩⟩
  · exact reScanPos_chain matchClassAt matchClassAt_consumes _ _ _ _
  · exact reScanPos_snd matchClassAt _ _ _ _
  · exact reScanPos_chain matchFunAt matchFunAt_consumes _ _ _ _
  · exact reScanPos_snd matchFunAt _ _ _ _

theorem reScan_single (matchAt : List Char → Option (List Char × Bool × List Char))
    (c : Char) (cs : List Char) (cap : List Char) (lw : Bool)
    (hm : matchAt (c :: cs) = some (cap, lw, [])) :
    reScan matchAt (c :: cs).length (c :: cs) false = [cap] := by
  show reScan matchAt (cs.length + 1) (c :: cs) false = [cap]
  simp only [reScan, Bool.false_eq_true, if_false, hm, reScan_nil]

theorem funScan_single (name : String) (hne : name.data ≠ [])
    (hw : ∀ c ∈ name.data, isWordChar c = true) :
    re_findall_function (String.mk ((("function ").data ++ name.data) ++ [('(')])) = [name] := by
  obtain ⟨c0, nm, hnm⟩ : ∃ c0 nm, name.data = c0 :: nm := by
    cases hnd : name.data with
    | nil => exact absurd hnd hne
    | cons a l => exact ⟨a, l, rfl⟩
  have hc0w : isWordChar c0 = true := hw c0 (by rw [hnm]; exact List.mem_cons_self _ _)
  have hc0sp : isPySpace c0 = false := word_not_space hc0w
  have hpar : ∀ c : Char, (([('(')] : List Char)).head? = some c → isWordChar c = false := by
    intro c hc
    simp only [List.head?_cons, Option.some.injEq] at hc
    rw [← hc]
    rfl
  have hsplitName := takeWhile_append_all (p := isWordChar) name.data [('(')] hw hpar
  -- the remainder after the literal keyword
  have hlit : matchLit (("function").data) ((("function ").data ++ name.data) ++ [('(')]) =
      some ((' ') :: (name.data ++ [('(')])) := by
    have : ((("function ").data ++ name.data) ++ [('(')] : List Char) =
        ("function").data ++ ((' ') :: (name.data ++ [('(')])) := by
      simp [show (("function ").data : List Char) = ("function").data ++ [(' ')] from rfl,
        List.append_assoc]
    rw [this]
    exact matchLit_self _ _
  have hdropSp : ((' ') :: (name.data ++ [('(')])).dropWhile isPySpace = name.data ++ [('(')] := by
    rw [List.dropWhile_cons]
    simp only [show isPySpace (' ') = true from rfl, if_true]
    rw [hnm]
    rw [List.cons_append, List.dropWhile_cons]
    simp [hc0sp, hnm]
  have htkSp : (((' ') :: (name.data ++ [('(')])).takeWhile isPySpace).isEmpty = false := by
    rw [List.takeWhile_cons]
    simp [show isPySpace (' ') = true from rfl]
  have hm1 : matchFunAlt1 ((("function ").data ++ name.data) ++ [('(')]) =
      some (name.data, false, []) := by
    unfold matchFunAlt1
    rw [hlit]
    simp only [htkSp, hdropSp, hsplitName.1, hsplitName.2]
    have hwne : (name.data.isEmpty) = false := by
      rw [hnm]; rfl
    simp only [hwne, Bool.false_eq_true, if_false]
    have : (([('(')] : List Char)).dropWhile isPySpace = [('(')] := rfl
    rw [this]
    rfl
  have hm : matchFunAt ((("function ").data ++ name.data) ++ [('(')]) =
      some (name.data, false, []) := by
    unfold matchFunAt
    rw [hm1]
  have hcons : ((("function ").data ++ name.data) ++ [('(')] : List Char) =
      ('f') :: ((("unction ").data ++ name.data) ++ [('(')]) := rfl
  have hscan : reScan matchFunAt ((("function ").data ++ name.data) ++ [('(')]).length
      ((("function ").data ++ name.data) ++ [('(')]) false = [name.data] := by
    rw [hcons] at hm ⊢
    exact reScan_single matchFunAt _ _ _ _ hm
  show (reScan matchFunAt (String.mk ((("function ").data ++ name.data) ++ [('(')])).data.length
      (String.mk ((("function ").data ++ name.data) ++ [('(')])).data false).map String.mk = [name]
  rw [show (String.mk ((("function ").data ++ name.data) ++ [('(')])).data =
      (("function ").data ++ name.data) ++ [('(')] from rfl]
  rw [hscan]
  simp [mk_data]

/-! Claim C1 -/

/-- Counterexample to C1: on the file text of the spec's scenario the
pattern-based extractor returns no function names at all — in
particular not the claimed list with area and compute.  Neither
alternative of the function pattern matches anywhere in the text: the
keyword function does not occur, and no bare identifier is followed by a
parenthesis, an identifier and a second parenthesis. -/
theorem claim_C1_cex :
    (extract_js_cpp_info (fun _ => ("")) ("shape.cpp") shapeText).functions = [] ∧
      (extract_js_cpp_info (fun _ => ("")) ("shape.cpp") shapeText).functions ≠
        [("area"), ("compute")] :=
  ⟨by decide, by decide⟩

/-- C1 (amended): on the file text of the spec's scenario the extractor
returns the empty function list.  In general the function pattern
matches either the keyword function followed by whitespace, an
identifier and an opening parenthesis — capturing that identifier — or a
bare identifier followed by an opening parenthesis, a further identifier
and a second opening parenthesis, capturing the second identifier (as in
the text compute open-paren x open-paren, which captures x). -/
theorem claim_C1_amended :
    (extract_js_cpp_info (fun _ => ("")) ("shape.cpp") shapeText).functions = [] ∧
      (∀ name : String, name.data ≠ [] → (∀ c ∈ name.data, isWordChar c = true) →
        re_findall_function (String.mk ((("function ").data ++ name.data) ++ [('(')])) =
          [name]) ∧
      re_findall_function ("compute(x(") = [("x")] :=
  ⟨by decide, funScan_single, by decide⟩

/-- Witness for the amended C1: the keyword alternative at the concrete
identifier area. -/
theorem claim_C1_witness :
    re_findall_function (String.mk ((("function ").data ++ ("area").data) ++ [('(')])) =
      [("area")] :=
  claim_C1_amended.2.1 ("area") (by decide) (by decide)

/-! Claim C6 -/

theorem pyEndsWith_iff (s e : String) : pyEndsWith s e = true ↔ e.data <:+ s.data := by
  unfold pyEndsWith
  rw [Option.isSome_iff_exists]
  constructor
  · rintro ⟨r, hr⟩
    have hsr := (matchLit_eq _ _ _).mp hr
    rw [← List.reverse_prefix]
    exact ⟨r, hsr.symm⟩
  · intro hsf
    rw [← List.reverse_prefix] at hsf
    obtain ⟨t, ht⟩ := hsf
    exact ⟨t, (matchLit_eq _ _ _).mpr ht.symm⟩

theorem gcf_filter_dir (exts : List String) (root : String) :
    ∀ files : List (String × String),
      ((files.filter fun f => exts.any fun ext => pyEndsWith f.1 ext).map
        fun f => pyJoin root f.1) =
      ((files.map fun f => (pyJoin root f.1, f.1, f.2)).filter
        fun t => exts.any fun ext => pyEndsWith t.2.1 ext).map fun t => t.1 := by
  intro files
  induction files with
  | nil => rfl
  | cons f fs ih =>
    by_cases h : (exts.any fun ext => pyEndsWith f.1 ext) = true
    · simp only [List.filter_cons, List.map_cons, h, if_true, ih]
    · simp only [List.filter_cons, List.map_cons, h, if_false, Bool.false_eq_true, ih]

theorem gcf_filter (exts : List String) :
    ∀ L : List (String × List (String × String)),
      ((L.map fun re => (re.2.filter fun f => exts.any fun ext => pyEndsWith f.1 ext).map
        fun f => pyJoin re.1 f.1)).flatten =
      (((L.map fun re => re.2.map fun f => (pyJoin re.1 f.1, f.1, f.2)).flatten).filter
        fun t => exts.any fun ext => pyEndsWith t.2.1 ext).map fun t => t.1 := by
  intro L
  induction L with
  | nil => rfl
  | cons re L ih =>
    simp only [List.map_cons, List.flatten_cons, List.filter_append, List.map_append, ih]
    rw [gcf_filter_dir exts re.1 re.2]

/-- C6: get_code_files returns exactly the files under the directory, at
any nesting depth, whose names end with one of the extensions — the
filter of the recursively collected file list by the name-suffix test —
and each matching file appears exactly once provided the walked file
paths are distinct.  The suffix test is exact and case-sensitive: it
holds precisely when the extension's characters are a suffix of the
name's characters. -/
theorem claim_C6 (directory : String) (entries : FsList) (exts : List String) :
    get_code_files directory entries exts =
      ((pyAllFiles directory entries).filter fun t =>
        exts.any fun ext => pyEndsWith t.2.1 ext).map (fun t => t.1) ∧
      (∀ s e : String, pyEndsWith s e = true ↔ e.data <:+ s.data) ∧
      (((pyAllFiles directory entries).map fun t => t.1).Nodup →
        (get_code_files directory entries exts).Nodup) := by
  have hmain : get_code_files directory entries exts =
      ((pyAllFiles directory entries).filter fun t =>
        exts.any fun ext => pyEndsWith t.2.1 ext).map (fun t => t.1) := by
    unfold get_code_files pyAllFiles
    exact gcf_filter exts (os_walk directory entries)
  refine ⟨hmain, fun s e => pyEndsWith_iff s e, fun hnd => ?_⟩
  rw [hmain]
  exact List.Nodup.sublist (List.Sublist.map _ (List.filter_sublist _)) hnd

/-- Witness for C6 on the sample tree: discovery order with the files of
a directory before the files of its subdirectories, each path once. -/
theorem claim_C6_witness :
    get_code_files (".") sampleFs ([(".py")]) = [("./c.py"), ("./sub/a.py")] ∧
      (get_code_files (".") sampleFs ([(".py")])).Nodup :=
  ⟨by decide, (claim_C6 (".") sampleFs ([(".py")])).2.2 (by decide)⟩

/-! Claim C9 -/

theorem pyJoin_suffix (root nm : String) : nm.data <:+ (pyJoin root nm).data := by
  unfold pyJoin
  by_cases h1 : nm.data.head? = some ('/')
  · rw [if_pos h1]
  · rw [if_neg h1]
    by_cases h2 : root.data = ([] : List Char)
    · rw [if_pos h2]
    · rw [if_neg h2]
      by_cases h3 : root.data.getLast? = some ('/')
      · rw [if_pos h3, String.data_append]
        exact List.suffix_append _ _
      · rw [if_neg h3, String.data_append, String.data_append]
        exact List.suffix_append _ _

theorem ext_suffix_path {nm : String} (root : String) {ext : String}
    (h : pyEndsWith nm ext = true) : pyEndsWith (pyJoin root nm) ext = true := by
  rw [pyEndsWith_iff] at h ⊢
  exact h.trans (pyJoin_suffix root nm)

theorem pyAllFiles_shape (directory : String) (entries : FsList) :
    ∀ t ∈ pyAllFiles directory entries, ∃ root, t.1 = pyJoin root t.2.1 := by
  intro t ht
  unfold pyAllFiles at ht
  rw [List.mem_flatten] at ht
  obtain ⟨l, hl, htl⟩ := ht
  rw [List.mem_map] at hl
  obtain ⟨re, hre, rfl⟩ := hl
  rw [List.mem_map] at htl
  obtain ⟨f, hf, hft⟩ := htl
  refine ⟨re.1, ?_⟩
  rw [← hft]

theorem buildRecords_spec (pyParse : String → Option PyAst) (summarizer : String → String) :
    ∀ L : List (String × String × String),
      (∀ t ∈ L, (pyEndsWith t.1 (".py") || pyEndsWith t.1 (".js") ||
        pyEndsWith t.1 (".cpp") || pyEndsWith t.1 (".java")) = true) →
      ∀ recs, buildRecords pyParse summarizer L = some recs →
        recs.length = L.length ∧
        ∀ i (h1 : i < recs.length) (h2 : i < L.length),
          recordFor pyParse summarizer (L.get ⟨i, h2⟩) = some (recs.get ⟨i, h1⟩) := by
  intro L
  induction L with
  | nil =>
    intro _ recs hb
    unfold buildRecords at hb
    simp only [Option.some.injEq] at hb
    subst hb
    exact ⟨rfl, fun i h1 h2 => absurd h2 (by simp)⟩
  | cons t L ih =>
    intro hall recs hb
    have ht := hall t (List.mem_cons_self t L)
    have htail : ∀ x ∈ L, (pyEndsWith x.1 (".py") || pyEndsWith x.1 (".js") ||
        pyEndsWith x.1 (".cpp") || pyEndsWith x.1 (".java")) = true :=
      fun x hx => hall x (List.mem_cons_of_mem t hx)
    unfold buildRecords at hb
    by_cases hpy : pyEndsWith t.1 (".py") = true
    · rw [if_pos hpy] at hb
      cases hp : pyParse t.2.2 with
      | none => rw [hp] at hb; simp at hb
      | some tree =>
        rw [hp] at hb
        cases hbr : buildRecords pyParse summarizer L with
        | none => rw [hbr] at hb; simp at hb
        | some rs =>
          rw [hbr] at hb
          simp only [Option.map_some', Option.some.injEq] at hb
          subst hb
          obtain ⟨hlen, hidx⟩ := ih htail rs hbr
          refine ⟨by simp [hlen], fun i h1 h2 => ?_⟩
          cases i with
          | zero => simp [recordFor, hpy, hp, List.get]
          | succ j =>
            have hj1 : j < rs.length := by simpa using h1
            have hj2 : j < L.length := by simpa using h2
            simpa using hidx j hj1 hj2
    · rw [if_neg hpy] at hb
      rw [Bool.not_eq_true] at hpy
      have hjs : (pyEndsWith t.1 (".js") || pyEndsWith t.1 (".cpp") ||
          pyEndsWith t.1 (".java")) = true := by
        rw [hpy] at ht
        simpa using ht
      rw [if_pos hjs] at hb
      cases hbr : buildRecords pyParse summarizer L with
      | none => rw [hbr] at hb; simp at hb
      | some rs =>
        rw [hbr] at hb
        simp only [Option.map_some', Option.some.injEq] at hb
        subst hb
        obtain ⟨hlen, hidx⟩ := ih htail rs hbr
        refine ⟨by simp [hlen], fun i h1 h2 => ?_⟩
        cases i with
        | zero => simp [recordFor, hpy, hjs, List.get]
        | succ j =>
          have hj1 : j < rs.length := by simpa using h1
          have hj2 : j < L.length := by simpa using h2
          simpa using hidx j hj1 hj2

/-- C9: a successful run produces exactly one FileRecord per discovered
file — the record list and the discovered list have the same length,
with the records in discovery order — and the i-th record is produced by
the single extraction strategy recordFor selects from the i-th file's
path suffix alone: grammar-based extraction for the fully-parsed
language, pattern-based extraction for the other configured extensions,
never both. -/
theorem claim_C9 (pyParse : String → Option PyAst) (summarizer : String → String)
    (directory : String) (entries : FsList) (recs : List FileRecord)
    (h : runPipeline pyParse summarizer directory entries = some recs) :
    get_code_files directory entries mainExtensions =
      (discoveredTriples directory entries).map (fun t => t.1) ∧
      recs.length = (discoveredTriples directory entries).length ∧
      ∀ i (h1 : i < recs.length) (h2 : i < (discoveredTriples directory entries).length),
        recordFor pyParse summarizer ((discoveredTriples directory entries).get ⟨i, h2⟩) =
          some (recs.get ⟨i, h1⟩) := by
  have hdisc : ∀ t ∈ discoveredTriples directory entries,
      (pyEndsWith t.1 (".py") || pyEndsWith t.1 (".js") || pyEndsWith t.1 (".cpp") ||
        pyEndsWith t.1 (".java")) = true := by
    intro t htm
    unfold discoveredTriples at htm
    have hmem := (List.mem_filter.mp htm).1
    have hany := (List.mem_filter.mp htm).2
    obtain ⟨root, hroot⟩ := pyAllFiles_shape directory entries t hmem
    rw [List.any_eq_true] at hany
    obtain ⟨ext, hext, hsuf⟩ := hany
    have hpath : pyEndsWith t.1 ext = true := by
      rw [hroot]
      exact ext_suffix_path root hsuf
    simp only [mainExtensions, List.mem_cons, List.not_mem_nil, or_false] at hext
    rcases hext with rfl | rfl | rfl | rfl <;> simp [hpath]
  have hspec := buildRecords_spec pyParse summarizer (discoveredTriples directory entries)
    hdisc recs h
  refine ⟨?_, hspec.1, hspec.2⟩
  have hgcf := gcf_filter mainExtensions (os_walk directory entries)
  unfold get_code_files discoveredTriples pyAllFiles
  exact hgcf

/-- Witness for C9 on the sample tree: the run succeeds, yielding one
record per discovered file. -/
theorem claim_C9_witness :
    runPipeline (fun _ => some (.Module .nil)) (fun _ => ("S")) (".") sampleFs =
      some [⟨("./c.py"), [], [], sentinelSummary⟩, ⟨("./sub/a.py"), [], [], sentinelSummary⟩] ∧
      ([⟨("./c.py"), [], [], sentinelSummary⟩,
        ⟨("./sub/a.py"), [], [], sentinelSummary⟩] : List FileRecord).length =
        (discoveredTriples (".") sampleFs).length :=
  ⟨by decide, (claim_C9 (fun _ => some (.Module .nil)) (fun _ => ("S")) (".") sampleFs _
    (by decide)).2.1⟩

/-! Claim C8 -/

theorem takeWhile_ne_append {d : Char} : ∀ (u v : List Char), d ∉ u →
    (u ++ d :: v).takeWhile (fun c => c != d) = u ∧
      (u ++ d :: v).dropWhile (fun c => c != d) = d :: v := by
  intro u
  induction u with
  | nil =>
    intro v _
    constructor
    · rw [List.nil_append, List.takeWhile_cons]
      simp
    · rw [List.nil_append, List.dropWhile_cons]
      simp
  | cons a u ih =>
    intro v hd
    have had : a ≠ d := fun had => hd (had ▸ List.mem_cons_self a u)
    have hdu : d ∉ u := fun hdu => hd (List.mem_cons_of_mem a hdu)
    have h1 : (a != d) = true := by simp [had]
    obtain ⟨ht, hdr⟩ := ih v hdu
    constructor
    · rw [List.cons_append, List.takeWhile_cons, h1]
      simp only [if_true, ht]
    · rw [List.cons_append, List.dropWhile_cons, h1]
      simp only [if_true, hdr]

theorem splitAtChar_eq {d : Char} (u v : List Char) (hd : d ∉ u) :
    splitAtChar d (u ++ d :: v) = some (u, v) := by
  unfold splitAtChar
  obtain ⟨ht, hdr⟩ := takeWhile_ne_append u v hd
  rw [hdr, ht]

theorem bullets_len : ∀ ns : List String, ns.length ≤ ((ns.map bulletLine).flatten).length := by
  intro ns
  induction ns with
  | nil => simp
  | cons n ns ih =>
    simp only [List.map_cons, List.flatten_cons, List.length_append, List.length_cons]
    have : 1 ≤ (bulletLine n).length := by
      unfold bulletLine
      simp [litBullet1]
    omega

theorem head_len_pos {T : List Char} {c : Char} (h : T.head? = some c) : 1 ≤ T.length := by
  cases T with
  | nil => simp at h
  | cons a t => simp

theorem matchLit_litNl (Z : List Char) : matchLit litNl (('\n') :: Z) = some Z :=
  matchLit_self litNl Z

theorem parseBullets_spec : ∀ (ns : List String) (fuel : Nat) (T : List Char),
    ns.length < fuel → (∀ n ∈ ns, ('\n') ∉ n.data ∧ ('`') ∉ n.data) →
    T.head? = some ('\n') →
    parseBullets fuel ((ns.map bulletLine).flatten ++ T) =
      some (ns.map (fun n => n.data), T) := by
  intro ns
  induction ns with
  | nil =>
    intro fuel T hf _ hT
    cases fuel with
    | zero => omega
    | succ m =>
      obtain ⟨T2, hT2⟩ : ∃ T2, T = ('\n') :: T2 := by
        cases T with
        | nil => simp at hT
        | cons a t =>
          simp only [List.head?_cons, Option.some.injEq] at hT
          exact ⟨t, by rw [hT]⟩
      subst hT2
      simp only [List.map_nil, List.flatten_nil, List.nil_append]
      unfold parseBullets
      rw [show matchLit litBullet1 (('\n') :: T2) = none from rfl]
  | cons n ns ih =>
    intro fuel T hf hwf hT
    cases fuel with
    | zero => omega
    | succ m =>
      have hw := hwf n (List.mem_cons_self n ns)
      have harr : (((n :: ns).map bulletLine).flatten ++ T : List Char) =
          litBullet1 ++ (n.data ++ (('`') :: (litNl ++ ((ns.map bulletLine).flatten ++ T)))) := by
        simp only [List.map_cons, List.flatten_cons, bulletLine, List.append_assoc]
        rw [show (litBullet2 : List Char) = ('`') :: litNl from rfl]
        rfl
      rw [harr]
      unfold parseBullets
      simp only [matchLit_self, splitAtChar_eq n.data _ hw.2, matchLit_litNl,
        ih m _ (by simp at hf; omega) (fun x hx => hwf x (List.mem_cons_of_mem n hx)) hT,
        List.map_cons]

theorem basename_subset {p : String} {c : Char} (h : c ∈ (pyBasename p).data) : c ∈ p.data := by
  unfold pyBasename at h
  have h2 : c ∈ (p.data.reverse.takeWhile (fun x => x != ('/'))).reverse := h
  rw [List.mem_reverse] at h2
  have h3 := (List.takeWhile_sublist (l := p.data.reverse) (fun x => x != ('/'))).subset h2
  rwa [List.mem_reverse] at h3

theorem parse_csec (CL : List String) (X : List Char)
    (hcl : ∀ n ∈ CL, ('\n') ∉ n.data ∧ ('`') ∉ n.data) (hX : X.head? = some ('\n')) :
    parseSection litClasses
        ((if CL.isEmpty then [] else litClasses ++ (CL.map bulletLine).flatten) ++ X) =
      some (CL.map (fun n => n.data), X) := by
  cases CL with
  | nil =>
    obtain ⟨X2, hX2⟩ : ∃ X2, X = ('\n') :: X2 := by
      cases X with
      | nil => simp at hX
      | cons a t =>
        simp only [List.head?_cons, Option.some.injEq] at hX
        exact ⟨t, by rw [hX]⟩
    subst hX2
    unfold parseSection
    rw [show ((if ([] : List String).isEmpty then [] else
      litClasses ++ (([] : List String).map bulletLine).flatten) : List Char) = [] from rfl]
    rw [List.nil_append]
    rw [show matchLit litClasses (('\n') :: X2) = none from rfl]
    rfl
  | cons n ns =>
    have hlt : ((n :: ns) : List String).length <
        (((n :: ns).map bulletLine).flatten ++ X).length := by
      rw [List.length_append]
      have h1 := bullets_len (n :: ns)
      have h2 := head_len_pos hX
      omega
    have hb := parseBullets_spec (n :: ns) _ X hlt hcl hX
    unfold parseSection
    rw [show ((if ((n :: ns) : List String).isEmpty then [] else
      litClasses ++ ((n :: ns).map bulletLine).flatten) : List Char) =
      litClasses ++ ((n :: ns).map bulletLine).flatten from rfl]
    rw [List.append_assoc, matchLit_self]
    exact hb

theorem parse_fsec (FN : List String) (X : List Char)
    (hfn : ∀ n ∈ FN, ('\n') ∉ n.data ∧ ('`') ∉ n.data) :
    parseSection litFunctions
        ((if FN.isEmpty then [] else litFunctions ++ (FN.map bulletLine).flatten) ++
          (litSummary ++ X)) =
      some (FN.map (fun n => n.data), litSummary ++ X) := by
  cases FN with
  | nil =>
    unfold parseSection
    rw [show ((if ([] : List String).isEmpty then [] else
      litFunctions ++ (([] : List String).map bulletLine).flatten) : List Char) = [] from rfl]
    rw [List.nil_append]
    have hnone : matchLit litFunctions (litSummary ++ X) = none := rfl
    rw [hnone]
    rfl
  | cons n ns =>
    have hX : ((litSummary ++ X : List Char)).head? = some ('\n') := rfl
    have hlt : ((n :: ns) : List String).length <
        (((n :: ns).map bulletLine).flatten ++ (litSummary ++ X)).length := by
      rw [List.length_append, List.length_append]
      have h1 := bullets_len (n :: ns)
      have h2 : 0 < (litSummary : List Char).length := by decide
      omega
    have hb := parseBullets_spec (n :: ns) _ _ hlt hfn hX
    unfold parseSection
    rw [show ((if ((n :: ns) : List String).isEmpty then [] else
      litFunctions ++ ((n :: ns).map bulletLine).flatten) : List Char) =
      litFunctions ++ ((n :: ns).map bulletLine).flatten from rfl]
    rw [List.append_assoc, matchLit_self]
    exact hb

theorem map_mk_data (l : List String) : l.map (String.mk ∘ fun n : String => n.data) = l := by
  induction l with
  | nil => rfl
  | cons a l ih => simp [ih, mk_data, Function.comp]

theorem parseItem_spec (r : FileRecord) (rest : List Char) (hwf : wfRecord r) :
    parseItem (renderItem r ++ rest) = some (fieldsOf r, rest) := by
  obtain ⟨hf1, hf2, hcl, hfn, hsum⟩ := hwf
  have hbnl : ('\n') ∉ (pyBasename r.file).data := fun hc => hf1 (basename_subset hc)
  have harr : renderItem r ++ rest =
      litH2 ++ ((pyBasename r.file).data ++ (('\n') :: (litPathHdr ++
        (r.file.data ++ (('`') :: (litNlNl ++
        ((if r.classes.isEmpty then [] else litClasses ++ (r.classes.map bulletLine).flatten) ++
          ((if r.functions.isEmpty then [] else
              litFunctions ++ (r.functions.map bulletLine).flatten) ++
            (litSummary ++ (r.summary.data ++ (('\n') :: (litRuleTail ++ rest)))))))))))) := by
    unfold renderItem
    rw [show (litNlPath : List Char) = ('\n') :: litPathHdr from rfl,
      show (litTickNlNl : List Char) = ('`') :: litNlNl from rfl,
      show (litRule : List Char) = ('\n') :: litRuleTail from rfl]
    simp only [List.append_assoc, List.cons_append]
  have hXc : ((if r.functions.isEmpty then [] else
      litFunctions ++ (r.functions.map bulletLine).flatten) ++
        (litSummary ++ (r.summary.data ++ (('\n') :: (litRuleTail ++ rest))))).head? =
      some ('\n') := by
    cases hb : r.functions.isEmpty
    · rw [if_neg (by simp [hb])]
      rw [show (litFunctions : List Char) = ('\n') :: (("### Functions\n").data) from rfl]
      rfl
    · rw [if_pos (by simp [hb])]
      rw [List.nil_append]
      rfl
  unfold parseItem
  rw [harr, matchLit_self]
  simp only [Option.bind_eq_bind, Option.some_bind]
  rw [splitAtChar_eq _ _ hbnl]
  simp only [Option.some_bind]
  rw [matchLit_self]
  simp only [Option.some_bind]
  rw [splitAtChar_eq _ _ hf2]
  simp only [Option.some_bind]
  rw [matchLit_self]
  simp only [Option.some_bind]
  rw [parse_csec _ _ hcl hXc]
  simp only [Option.some_bind]
  rw [parse_fsec _ _ hfn]
  simp only [Option.some_bind]
  rw [matchLit_self]
  simp only [Option.some_bind]
  rw [splitAtChar_eq _ _ hsum]
  simp only [Option.some_bind]
  rw [matchLit_self]
  simp only [Option.some_bind]
  simp [fieldsOf, mk_data, List.map_map, Function.comp]
  exact ⟨map_mk_data r.classes, map_mk_data r.functions⟩

theorem parseItems_eq (fuel : Nat) (c : Char) (cs : List Char) :
    parseItems (fuel + 1) (c :: cs) =
      match parseItem (c :: cs) with
      | none => none
      | some (f, rest) =>
        match parseItems fuel rest with
        | none => none
        | some fs => some (f :: fs) := rfl

theorem renderItem_len_pos (r : FileRecord) : 1 ≤ (renderItem r).length := by
  unfold renderItem
  simp only [List.length_append]
  have h3 : (litH2 : List Char).length = 3 := by decide
  omega

theorem items_len : ∀ records : List FileRecord,
    records.length ≤ ((records.map renderItem).flatten).length := by
  intro records
  induction records with
  | nil => simp
  | cons r rs ih =>
    simp only [List.map_cons, List.flatten_cons, List.length_append, List.length_cons]
    have := renderItem_len_pos r
    omega

theorem parseItems_spec : ∀ (records : List FileRecord) (fuel : Nat),
    (∀ r ∈ records, wfRecord r) → records.length ≤ fuel →
    parseItems fuel ((records.map renderItem).flatten) = some (records.map fieldsOf) := by
  intro records
  induction records with
  | nil =>
    intro fuel _ _
    cases fuel <;> rfl
  | cons r rs ih =>
    intro fuel hwf hlen
    cases fuel with
    | zero => simp at hlen
    | succ m =>
      simp only [List.map_cons, List.flatten_cons]
      cases hE : renderItem r ++ (rs.map renderItem).flatten with
      | nil =>
        exfalso
        have hl := congrArg List.length hE
        simp only [List.length_append, List.length_nil] at hl
        have := renderItem_len_pos r
        omega
      | cons c cs =>
        rw [parseItems_eq]
        have hps := parseItem_spec r ((rs.map renderItem).flatten)
          (hwf r (List.mem_cons_self r rs))
        rw [hE] at hps
        have htl : rs.length ≤ m := by
          simp only [List.length_cons] at hlen
          omega
        simp only [hps, ih m (fun x hx => hwf x (List.mem_cons_of_mem r hx)) htl,
          List.map_cons]

/-- C8 (amended): for every sequence of records whose fields avoid the
format's delimiter characters — no newline in the path, the class and
function names, or the summary, and no backtick in the path or the
names — rendering the Markdown report and re-parsing it recovers, for
each record, the same base filename, path, class list, function list
and summary string. -/
theorem claim_C8_amended (records : List FileRecord) (hwf : ∀ r ∈ records, wfRecord r) :
    parseReport (generate_markdown_summary records) = some (records.map fieldsOf) := by
  unfold parseReport generate_markdown_summary
  rw [matchLit_self]
  exact parseItems_spec records _ hwf (items_len records)

set_option maxRecDepth 40000 in
/-- Counterexample to C8: a single record whose summary string embeds a
complete fake second section renders to exactly the same document as two
distinct records, so no re-parsing of the report can recover the
original fields for every record sequence. -/
theorem claim_C8_cex :
    generate_markdown_summary c8one = generate_markdown_summary c8two ∧
      c8one.map fieldsOf ≠ c8two.map fieldsOf :=
  ⟨by decide, by decide⟩

/-- Witness for the amended C8 at a concrete well-formed record. -/
theorem claim_C8_witness :
    parseReport (generate_markdown_summary [⟨("a.py"), [("Foo")], [("bar")], ("s")⟩]) =
      some ([⟨("a.py"), [("Foo")], [("bar")], ("s")⟩].map fieldsOf) :=
  claim_C8_amended [⟨("a.py"), [("Foo")], [("bar")], ("s")⟩] (by decide)
